import Mathlib

/-!
Verification development for the RANK_BOT repository.

The program keeps a table mapping Discord member ids (as strings) to integer
ranks.  The active implementation is `utils/rank_manager.py` together with
`cogs/rank_cog.py` (wired up by `bot.py`); `main.py` is a legacy standalone
variant of the same bot.

Python dicts preserve insertion order, update values in place, and append new
keys at the end; we embed the rank table as an association list
`List (String × Int)` with primitives `dictGet`, `dictPop`, `dictInsert`
mirroring `d.get`, `d.pop(k, None)` and `d[k] = v`.

The nickname regex `#\s*(\d+)$` of `RankManager.parse_rank` is embedded by
matching the reversed character list: a Python-regex match of this pattern
exists exactly when, after optionally discarding one final newline (Python `$`
also matches just before a trailing newline), the string ends in a nonempty
digit run, preceded by a possibly-empty whitespace run, preceded by `#`; the
captured group is that maximal digit run.  `re.sub(r'#\s*\d+$', '', s)`
removes exactly the `#`, the whitespace run and the digit run (keeping a
trailing newline, since `$` is zero-width).
-/

/-- Python whitespace (ASCII fragment of `\s` and `str.strip`). -/
def isPySpace (c : Char) : Bool :=
  c = ' ' || c = '\t' || c = '\n' || c = '\r' || c = '\x0b' || c = '\x0c'

/-- Value of a decimal digit string (most significant first), as `int(...)`. -/
def digitsToNat (ds : List Char) : Nat :=
  ds.foldl (fun a c => 10 * a + (c.toNat - 48)) 0

/-- Fuel-driven decimal printing of a natural number, least fuel `n + 1`. -/
def natDigitsAux : Nat → Nat → List Char
  | 0, _ => []
  | fuel + 1, n =>
    if n < 10 then [Nat.digitChar n]
    else natDigitsAux fuel (n / 10) ++ [Nat.digitChar (n % 10)]

/-- Decimal digits of a natural number, as Python `str` renders it. -/
def natDigits (n : Nat) : List Char :=
  natDigitsAux (n + 1) n

/-- Decimal rendering of a Python int, as used by the f-string in
`update_nickname`. -/
def intStr (i : Int) : String :=
  if i < 0 then String.mk ('-' :: natDigits (-i).toNat)
  else String.mk (natDigits i.toNat)

/-- Discard one trailing newline: Python `$` also matches right before it.
The input list is the reversed character list of the nickname. -/
def dropFinalNL (rcs : List Char) : List Char :=
  match rcs with
  | c :: rest => if c = '\n' then rest else rcs
  | [] => []

/-- Match the reversed pattern `#\s*(\d+)` at the head of a reversed character
list: returns the reversed digit run and the characters before the `#`
(still reversed), or `none` when the pattern is absent. -/
def markerSplit (rcs : List Char) : Option (List Char × List Char) :=
  let ds := rcs.takeWhile Char.isDigit
  if ds.isEmpty then none
  else
    match (rcs.dropWhile Char.isDigit).dropWhile isPySpace with
    | '#' :: tail => some (ds, tail)
    | _ => none

/-- Embedding of `re.search(r'#\s*(\d+)$', s)` followed by `int(group(1))`. -/
def parseRankStr (s : String) : Option Int :=
  match markerSplit (dropFinalNL s.data.reverse) with
  | some (ds, _) => some ((digitsToNat ds.reverse : Nat) : Int)
  | none => none

/-- `RankManager.parse_rank` (utils/rank_manager.py lines 52-64): the argument
is `Optional[str]`; `if nickname:` rejects both `None` and the empty string
before the regex search. -/
def parse_rank (nickname : Option String) : Option Int :=
  match nickname with
  | none => none
  | some s => if s = "" then none else parseRankStr s

/-- Embedding of `re.sub(r'#\s*\d+$', '', s)` from `update_nickname`: remove
the trailing rank marker when present (a final newline survives, because `$`
is zero-width). -/
def stripMarker (s : String) : String :=
  match s.data.reverse with
  | '\n' :: rest =>
    match markerSplit rest with
    | some (_, tail) => String.mk (('\n' :: tail).reverse)
    | none => s
  | rcs =>
    match markerSplit rcs with
    | some (_, tail) => String.mk tail.reverse
    | none => s

/-- Embedding of Python `str.strip()` (ASCII whitespace fragment). -/
def pyStrip (s : String) : String :=
  String.mk (((s.data.dropWhile isPySpace).reverse.dropWhile isPySpace).reverse)

/-- The display-name formatting performed by `update_nickname`
(utils/rank_manager.py lines 114-124) before the username comparison:
strip any trailing marker from the nickname, strip whitespace, and append
a space, `#` and the decimal rank when a rank is given. -/
def format_name (base : String) (r : Option Int) : String :=
  match r with
  | some k => pyStrip (stripMarker base) ++ " #" ++ intStr k
  | none => pyStrip (stripMarker base)

/-- Full new-nickname computation of `update_nickname` (utils/rank_manager.py
lines 114-128): the base is the stripped nickname when one exists, otherwise
the username; a result equal to the username is represented as `none`. -/
def compute_new_nickname (nick : Option String) (username : String)
    (newRank : Option Int) : Option String :=
  let base :=
    match nick with
    | some n => pyStrip (stripMarker n)
    | none => username
  let newNickname :=
    match newRank with
    | some k => base ++ " #" ++ intStr k
    | none => base
  if newNickname = username then none else some newNickname

/-! Rank-table primitives: Python dict semantics on association lists. -/

/-- The rank table: `self.user_ranks`, a dict from `str(member.id)` to int. -/
abbrev Table := List (String × Int)

/-- Python `d.get(k)`. -/
def dictGet : Table → String → Option Int
  | [], _ => none
  | p :: t, k => if p.1 = k then some p.2 else dictGet t k

/-- Table part of Python `d.pop(k, None)`: drop the entry when present. -/
def dictPop : Table → String → Table
  | [], _ => []
  | p :: t, k => if p.1 = k then t else p :: dictPop t k

/-- Python `d[k] = v`: update in place when the key exists, else append. -/
def dictInsert : Table → String → Int → Table
  | [], k, v => [(k, v)]
  | p :: t, k, v => if p.1 = k then (k, v) :: t else p :: dictInsert t k v

/-! Table operations, translated from the source. -/

/-- An in-place loop `for uid in d: d[uid] = f(d[uid])`: update every value,
keep every key in place. -/
def mapRanks (t : Table) (f : Int → Int) : Table :=
  t.map (fun p => (p.1, f p.2))

/-- Table effect of `RankManager.adjust_ranks` (utils/rank_manager.py lines
144-184): pop the target when it had a rank, shift the affected band of other
ranks by one, then assign the new rank to the target.  `oldRank` is the value
the caller read with `user_ranks.get` (cogs/rank_cog.py line 79). -/
def adjust_ranks (t : Table) (target : String) (oldRank : Option Int)
    (newRank : Int) : Table :=
  let t1 :=
    match oldRank with
    | some _ => dictPop t target
    | none => t
  let t2 :=
    match oldRank with
    | some o =>
      if newRank < o then
        mapRanks t1 (fun r => if newRank ≤ r ∧ r < o then r + 1 else r)
      else if o < newRank then
        mapRanks t1 (fun r => if o < r ∧ r ≤ newRank then r - 1 else r)
      else t1
    | none =>
      mapRanks t1 (fun r => if newRank ≤ r then r + 1 else r)
  dictInsert t2 target newRank

/-- Table effect of `RankCog.rank_remove` (cogs/rank_cog.py lines 134-144):
pop the target; when it had no rank, reply "does not have a rank assigned"
(first component `false`) and stop; otherwise decrement every rank greater
than the removed one.  The second component is the resulting table. -/
def rank_remove (t : Table) (target : String) : Bool × Table :=
  match dictGet t target with
  | none => (false, dictPop t target)
  | some o =>
    (true, mapRanks (dictPop t target) (fun r => if o < r then r - 1 else r))

/-- Comparison key of `rank_items.sort(key=lambda x: x[1])`. -/
abbrev rankLE (p q : String × Int) : Prop := p.2 ≤ q.2

/-- `enumerate(rank_items, start=1)` of `fill_rank_gaps`: reassign values
`i, i+1, ...` to the entries in order, keeping the keys. -/
def assignFrom (i : Int) : Table → Table
  | [] => []
  | p :: rest => (p.1, i) :: assignFrom (i + 1) rest

/-- Table effect of `RankManager.fill_rank_gaps` (utils/rank_manager.py lines
205-237): sort the entries by rank (Python `list.sort` is stable, as is
insertion sort with a `≤` comparison) and reassign ranks `1..N` in that
order; the final assignment `self.user_ranks = new_user_ranks` makes the
sorted, renumbered dict the new table. -/
def fill_rank_gaps (t : Table) : Table :=
  assignFrom 1 (List.insertionSort rankLE t)

/-- A guild member as the rank manager sees it: `str(member.id)`, the account
username `member.name`, and the optional nickname `member.nick`. -/
structure Member where
  id : String
  username : String
  nick : Option String
deriving DecidableEq

/-- State and rename actions of `RankManager.enforce_ranks_on_discord`
(utils/rank_manager.py lines 84-108): for each member compare the table rank
with the rank parsed from the live nickname and record the nickname update
`update_nickname` would compute; the table itself is only read, so it is
threaded through unchanged.  Returns the table after the pass and the list of
`(member id, new nickname)` updates. -/
def enforce_ranks_on_discord : Table → List Member → Table × List (String × Option String)
  | table, [] => (table, [])
  | table, m :: ms =>
    let expected := dictGet table m.id
    let current := parse_rank m.nick
    let act : Option (String × Option String) :=
      match expected with
      | some r =>
        if current = some r then none
        else some (m.id, compute_new_nickname m.nick m.username (some r))
      | none =>
        match current with
        | some _ => some (m.id, compute_new_nickname m.nick m.username none)
        | none => none
    let rest := enforce_ranks_on_discord table ms
    (rest.1, match act with | some a => a :: rest.2 | none => rest.2)

/-- Table effect of `RankManager.load_ranks_from_nicknames`
(utils/rank_manager.py lines 66-82): members without a nickname are skipped;
a nickname that parses to a rank is recorded under `str(member.id)`; no
renumbering of any kind is applied. -/
def load_ranks_from_nicknames : Table → List Member → Table
  | t, [] => t
  | t, m :: ms =>
    match m.nick with
    | none => load_ranks_from_nicknames t ms
    | some n =>
      match parse_rank (some n) with
      | some r => load_ranks_from_nicknames (dictInsert t m.id r) ms
      | none => load_ranks_from_nicknames t ms

/-! Persistence loading, translated from `load_ranks_from_file`. -/

/-- The persistent state: `self.user_ranks` and `self.rank_message_id`,
both initialised to empty/none in `RankManager.__init__`. -/
structure RankState where
  user_ranks : Table
  rank_message_id : Option Int
deriving DecidableEq

/-- What reading and JSON-decoding `ranks.json` can produce: the file is
missing, opening or decoding it raises (unreadable file, corrupt JSON, or a
non-dict top level making `data.get` raise), or it decodes to usable data. -/
inductive FileRead where
  | missing
  | unreadable
  | parsed (ranks : Table) (msgId : Option Int)

/-- Outcome of `RankManager.load_ranks_from_file` (utils/rank_manager.py
lines 24-36): the state after the call, whether the failure branch logged
(`logger.exception`), and whether an exception escaped to the caller. -/
structure LoadOutcome where
  state : RankState
  loggedFailure : Bool
  raisedError : Bool
deriving DecidableEq

/-- `RankManager.load_ranks_from_file`: a missing file keeps the initial
empty state; a read/decode failure is caught by `except Exception`, logged
with `logger.exception`, and likewise keeps the initial empty state; only a
successful decode populates the fields. -/
def load_ranks_from_file : FileRead → LoadOutcome
  | .missing => ⟨⟨[], none⟩, false, false⟩
  | .unreadable => ⟨⟨[], none⟩, true, false⟩
  | .parsed r m => ⟨⟨r, m⟩, false, false⟩

/-! The contiguity invariant. -/

/-- Integer segment `[a, a+1, ..., a+n-1]`. -/
def seg (a : Int) : Nat → List Int
  | 0 => []
  | n + 1 => a :: seg (a + 1) n

/-- The spec's steady-state invariant: the multiset of rank values is exactly
`{1, ..., N}` where `N` is the number of entries. -/
def Contiguous (t : Table) : Prop :=
  (t.map Prod.snd).Perm (seg 1 t.length)

instance : DecidablePred Contiguous := fun t =>
  inferInstanceAs (Decidable ((t.map Prod.snd).Perm (seg 1 t.length)))

/-- Well-formedness of a Python dict image: keys are distinct. -/
def KeysNodup (t : Table) : Prop :=
  (t.map Prod.fst).Nodup

instance : DecidablePred KeysNodup := fun t =>
  inferInstanceAs (Decidable ((t.map Prod.fst).Nodup))

/-! Basic dictionary lemmas. -/

theorem dictGet_eq_none_iff (t : Table) (k : String) :
    dictGet t k = none ↔ k ∉ t.map Prod.fst := by
  induction t with
  | nil => simp [dictGet]
  | cons p t ih =>
    by_cases h : p.1 = k
    · simp [dictGet, h]
    · simp [dictGet, h, ih, Ne.symm h]

theorem dictPop_eq_self_of_get_none (t : Table) (k : String)
    (h : dictGet t k = none) : dictPop t k = t := by
  induction t with
  | nil => rfl
  | cons p t ih =>
    by_cases hp : p.1 = k
    · simp [dictGet, hp] at h
    · simp only [dictGet, hp, if_neg] at h
      simp [dictPop, hp, ih h]

theorem dictInsert_eq_append_of_get_none (t : Table) (k : String) (v : Int)
    (h : dictGet t k = none) : dictInsert t k v = t ++ [(k, v)] := by
  induction t with
  | nil => rfl
  | cons p t ih =>
    by_cases hp : p.1 = k
    · simp [dictGet, hp] at h
    · simp only [dictGet, hp, if_neg] at h
      simp [dictInsert, hp, ih h]

/-! Concrete tables and members used in scenario claims. -/

/-- The table of Scenario B. -/
def tableABC : Table := [("A", 1), ("B", 2), ("C", 3)]

/-- The member of Scenario E: table rank 4, live nickname encoding 9. -/
def echoMember : Member := ⟨"echo", "EchoUser", some ("Echo #9")⟩

/-- The one-entry table of Scenario E. -/
def echoTable : Table := [("echo", 4)]

/-- C2: on the table `{A:1, B:2, C:3}`, `set_rank(C, 1)` (that is,
`adjust_ranks` with the old rank read from the table) yields `C` at rank 1,
`A` at rank 2 and `B` at rank 3, with `A` still listed before `B`. -/
theorem claim2_scenario_b :
    adjust_ranks tableABC ("C") (dictGet tableABC ("C")) 1
      = [("A", 2), ("B", 3), ("C", 1)] ∧
    dictGet (adjust_ranks tableABC ("C") (dictGet tableABC ("C")) 1) ("C") = some 1 ∧
    dictGet (adjust_ranks tableABC ("C") (dictGet tableABC ("C")) 1) ("A") = some 2 ∧
    dictGet (adjust_ranks tableABC ("C") (dictGet tableABC ("C")) 1) ("B") = some 3 := by
  decide

/-- C5: the reconciliation pass never mutates the rank table (the table after
`enforce_ranks_on_discord` equals the table before, for every input member
list), and for a member whose table rank is 4 but whose live name is
"Echo #9" the recorded update rewrites the name to "Echo #4", which parses
back to 4, not 9. -/
theorem claim5_enforce_frame :
    (∀ (table : Table) (ms : List Member),
      (enforce_ranks_on_discord table ms).1 = table) ∧
    (enforce_ranks_on_discord echoTable [echoMember]).2
      = [("echo", some ("Echo #4"))] ∧
    parse_rank (some ("Echo #4")) = some 4 := by
  refine ⟨fun table ms => ?_, by decide, by decide⟩
  induction ms with
  | nil => rfl
  | cons m ms ih => simpa [enforce_ranks_on_discord] using ih

/-- C6: removing the rank of a member absent from the table is reported as
the distinct no-op failure (the "does not have a rank assigned" reply,
encoded as first component `false`) and the table is left unchanged. -/
theorem claim6_remove_unranked (t : Table) (target : String)
    (h : dictGet t target = none) :
    rank_remove t target = (false, t) := by
  simp [rank_remove, h, dictPop_eq_self_of_get_none t target h]

/-- C6 witness: the theorem applied to the table `{A:1}` and member `B`. -/
theorem claim6_remove_unranked_witness :
    dictGet [("A", 1)] ("B") = none ∧
    rank_remove [("A", 1)] ("B") = (false, [("A", 1)]) :=
  ⟨by decide, claim6_remove_unranked [("A", 1)] ("B") (by decide)⟩

/-- C7: a present-but-unreadable or corrupt `ranks.json` is caught by the
`except` branch: the resulting state is the empty table with no listing
message id, the failure is logged, and no exception escapes to the caller. -/
theorem claim7_corrupt_load :
    (load_ranks_from_file FileRead.unreadable).state.user_ranks = [] ∧
    (load_ranks_from_file FileRead.unreadable).state.rank_message_id = none ∧
    (load_ranks_from_file FileRead.unreadable).loggedFailure = true ∧
    (load_ranks_from_file FileRead.unreadable).raisedError = false := by
  exact ⟨rfl, rfl, rfl, rfl⟩

/-- C9: `parse_rank` applied to an absent nickname (`None`) returns `None`
rather than raising; the embedded parser is total over optional strings. -/
theorem claim9_parse_none : parse_rank none = none := rfl

/-! Idempotence of the renumbering primitive. -/

theorem assignFrom_snd_ge (l : Table) :
    ∀ (i : Int), ∀ p ∈ assignFrom i l, i ≤ p.2 := by
  induction l with
  | nil => intro i p hp; simp [assignFrom] at hp
  | cons q l ih =>
    intro i p hp
    simp only [assignFrom, List.mem_cons] at hp
    rcases hp with h | h
    · simp [h]
    · have := ih (i + 1) p h
      omega

theorem assignFrom_sorted (l : Table) :
    ∀ (i : Int), List.Sorted rankLE (assignFrom i l) := by
  induction l with
  | nil => intro i; simp [assignFrom]
  | cons q l ih =>
    intro i
    simp only [assignFrom, List.sorted_cons]
    refine ⟨?_, ih (i + 1)⟩
    intro p hp
    have := assignFrom_snd_ge l (i + 1) p hp
    simp only [rankLE]
    omega

theorem assignFrom_assignFrom (l : Table) :
    ∀ (i j : Int), assignFrom i (assignFrom j l) = assignFrom i l := by
  induction l with
  | nil => intro i j; rfl
  | cons q l ih =>
    intro i j
    simp [assignFrom, ih]

/-- C3: the renumbering primitive `fill_rank_gaps` is idempotent: applying it
twice to any table yields the same table as applying it once.  (Python's
stable sort is embedded as insertion sort with the `≤` comparison on ranks,
which is stable, so the two agree entry by entry.) -/
theorem claim3_renumber_idempotent (t : Table) :
    fill_rank_gaps (fill_rank_gaps t) = fill_rank_gaps t := by
  unfold fill_rank_gaps
  rw [List.Sorted.insertionSort_eq (assignFrom_sorted (List.insertionSort rankLE t) 1),
    assignFrom_assignFrom]

/-! Startup loading of ranks from nicknames. -/

theorem dictGet_dictInsert_self (t : Table) (k : String) (v : Int) :
    dictGet (dictInsert t k v) k = some v := by
  induction t with
  | nil => simp [dictInsert, dictGet]
  | cons p t ih =>
    by_cases hp : p.1 = k
    · simp [dictInsert, hp, dictGet]
    · simp [dictInsert, hp, dictGet, ih]

theorem dictGet_dictInsert_ne (t : Table) (k k' : String) (v : Int)
    (h : k' ≠ k) : dictGet (dictInsert t k' v) k = dictGet t k := by
  induction t with
  | nil => simp [dictInsert, dictGet, h]
  | cons p t ih =>
    by_cases hp : p.1 = k'
    · simp [dictInsert, hp, dictGet, h]
    · simp [dictInsert, hp, dictGet, ih]

theorem dictGet_load_of_not_mem (ms : List Member) :
    ∀ (t : Table) (k : String), k ∉ ms.map Member.id →
      dictGet (load_ranks_from_nicknames t ms) k = dictGet t k := by
  induction ms with
  | nil => intro t k _; rfl
  | cons m ms ih =>
    intro t k hk
    simp only [List.map_cons, List.mem_cons, not_or] at hk
    obtain ⟨hne, hk⟩ := hk
    cases hn : m.nick with
    | none => simpa [load_ranks_from_nicknames, hn] using ih t k hk
    | some n =>
      cases hr : parse_rank (some n) with
      | none => simpa [load_ranks_from_nicknames, hn, hr] using ih t k hk
      | some r =>
        have := ih (dictInsert t m.id r) k hk
        simp only [load_ranks_from_nicknames, hn, hr]
        rw [this, dictGet_dictInsert_ne t k m.id r (fun h => hne h.symm)]

theorem load_ranks_from_nicknames_spec (ms : List Member) :
    ∀ (t : Table), (ms.map Member.id).Nodup → ∀ m ∈ ms,
      dictGet (load_ranks_from_nicknames t ms) m.id =
        match parse_rank m.nick with
        | some r => some r
        | none => dictGet t m.id := by
  induction ms with
  | nil => intro t _ m hm; simp at hm
  | cons m' ms ih =>
    intro t hnd m hm
    simp only [List.map_cons, List.nodup_cons] at hnd
    obtain ⟨hni, hnd⟩ := hnd
    rcases List.mem_cons.mp hm with rfl | hm
    · cases hn : m.nick with
      | none =>
        simp only [load_ranks_from_nicknames, hn, parse_rank]
        exact dictGet_load_of_not_mem ms t m.id hni
      | some n =>
        cases hr : parse_rank (some n) with
        | none =>
          simp only [load_ranks_from_nicknames, hn, hr]
          exact dictGet_load_of_not_mem ms t m.id hni
        | some r =>
          simp only [load_ranks_from_nicknames, hn, hr]
          rw [dictGet_load_of_not_mem ms (dictInsert t m.id r) m.id hni,
            dictGet_dictInsert_self]
    · have hne : m.id ≠ m'.id := by
        intro h
        exact hni (h ▸ List.mem_map_of_mem Member.id hm)
      cases hn : m'.nick with
      | none => simpa [load_ranks_from_nicknames, hn] using ih t hnd m hm
      | some n =>
        cases hr : parse_rank (some n) with
        | none => simpa [load_ranks_from_nicknames, hn, hr] using ih t hnd m hm
        | some r =>
          have := ih (dictInsert t m'.id r) hnd m hm
          simp only [load_ranks_from_nicknames, hn, hr]
          rw [this, dictGet_dictInsert_ne t m.id m'.id r (fun h => hne h.symm)]

/-- Members whose nicknames collide on rank 5, showing that startup loading
performs no renumbering. -/
def dupMembers : List Member :=
  [⟨"1", "userA", some ("Ann #5")⟩, ⟨"2", "userB", some ("Bob #5")⟩,
   ⟨"3", "userC", none⟩]

/-- C10: after `load_ranks_from_nicknames` over a member list with distinct
ids, every member whose nickname parses to rank `r` is mapped to exactly `r`
and members without a parsable nickname stay absent from the (initially
empty) startup table; and since no renumbering is applied, the resulting
table can hold duplicate ranks and gaps, as the collision on rank 5 shows. -/
theorem claim10_load_from_nicknames :
    (∀ (ms : List Member), (ms.map Member.id).Nodup → ∀ m ∈ ms,
      (∀ r : Int, parse_rank m.nick = some r →
        dictGet (load_ranks_from_nicknames [] ms) m.id = some r) ∧
      (parse_rank m.nick = none →
        dictGet (load_ranks_from_nicknames [] ms) m.id = none)) ∧
    load_ranks_from_nicknames [] dupMembers = [("1", 5), ("2", 5)] ∧
    ¬ Contiguous (load_ranks_from_nicknames [] dupMembers) ∧
    ¬ ((load_ranks_from_nicknames [] dupMembers).map Prod.snd).Nodup := by
  refine ⟨fun ms hnd m hm => ⟨fun r hr => ?_, fun hr => ?_⟩, by decide, by decide, by decide⟩
  · have := load_ranks_from_nicknames_spec ms [] hnd m hm
    rw [hr] at this
    exact this
  · have := load_ranks_from_nicknames_spec ms [] hnd m hm
    rw [hr] at this
    exact this

/-- C10 witness: the theorem applied to the concrete member list, member with
id 1 and nickname "Ann #5". -/
theorem claim10_load_from_nicknames_witness :
    (dupMembers.map Member.id).Nodup ∧
    dictGet (load_ranks_from_nicknames [] dupMembers) ("1") = some 5 :=
  ⟨by decide,
    (claim10_load_from_nicknames.1 dupMembers (by decide)
      ⟨"1", "userA", some ("Ann #5")⟩ (by decide)).1 5 (by decide)⟩

/-! Decimal printing round trip and the parse/format round trip. -/

theorem digitChar_isDigit : ∀ d : Nat, d < 10 → (Nat.digitChar d).isDigit = true := by
  decide

theorem digitChar_toNat : ∀ d : Nat, d < 10 → (Nat.digitChar d).toNat = 48 + d := by
  decide

theorem digitsToNat_append_singleton (l : List Char) (c : Char) :
    digitsToNat (l ++ [c]) = 10 * digitsToNat l + (c.toNat - 48) := by
  simp [digitsToNat, List.foldl_append]

theorem natDigitsAux_spec :
    ∀ (fuel n : Nat), n < fuel →
      digitsToNat (natDigitsAux fuel n) = n ∧
      natDigitsAux fuel n ≠ [] ∧
      ∀ c ∈ natDigitsAux fuel n, c.isDigit = true := by
  intro fuel
  induction fuel with
  | zero => intro n h; omega
  | succ fuel ih =>
    intro n h
    by_cases h10 : n < 10
    · refine ⟨?_, by simp [natDigitsAux, h10], ?_⟩
      · simp [natDigitsAux, h10, digitsToNat, digitChar_toNat n h10]
      · intro c hc
        simp [natDigitsAux, h10] at hc
        rw [hc]
        exact digitChar_isDigit n h10
    · have hdiv : n / 10 < fuel := by
        have := Nat.div_lt_self (by omega : 0 < n) (by omega : 1 < 10)
        omega
      obtain ⟨hval, hne, hdig⟩ := ih (n / 10) hdiv
      have hmod : n % 10 < 10 := Nat.mod_lt n (by omega)
      refine ⟨?_, by simp [natDigitsAux, h10], ?_⟩
      · rw [natDigitsAux, if_neg h10, digitsToNat_append_singleton, hval,
          digitChar_toNat (n % 10) hmod]
        omega
      · intro c hc
        rw [natDigitsAux, if_neg h10] at hc
        rcases List.mem_append.mp hc with h' | h'
        · exact hdig c h'
        · simp at h'
          rw [h']
          exact digitChar_isDigit (n % 10) hmod

theorem natDigits_spec (n : Nat) :
    digitsToNat (natDigits n) = n ∧
    natDigits n ≠ [] ∧
    ∀ c ∈ natDigits n, c.isDigit = true :=
  natDigitsAux_spec (n + 1) n (Nat.lt_succ_self n)

theorem takeWhile_append_of_forall {α} (p : α → Bool) :
    ∀ (l₁ l₂ : List α), (∀ c ∈ l₁, p c = true) →
      (l₁ ++ l₂).takeWhile p = l₁ ++ l₂.takeWhile p := by
  intro l₁
  induction l₁ with
  | nil => intro l₂ _; rfl
  | cons a l ih =>
    intro l₂ h
    have ha := h a (by simp)
    simp only [List.cons_append, List.takeWhile_cons, ha, if_true]
    rw [ih l₂ (fun c hc => h c (by simp [hc]))]

theorem dropWhile_append_of_forall {α} (p : α → Bool) :
    ∀ (l₁ l₂ : List α), (∀ c ∈ l₁, p c = true) →
      (l₁ ++ l₂).dropWhile p = l₂.dropWhile p := by
  intro l₁
  induction l₁ with
  | nil => intro l₂ _; rfl
  | cons a l ih =>
    intro l₂ h
    have ha := h a (by simp)
    simp only [List.cons_append, List.dropWhile_cons, ha, if_true]
    exact ih l₂ (fun c hc => h c (by simp [hc]))

theorem isDigit_ne_newline (c : Char) (h : c.isDigit = true) : c ≠ '\n' := by
  intro he
  rw [he] at h
  exact absurd h (by decide)

theorem markerSplit_digits_append (ds rest : List Char)
    (hne : ds ≠ []) (hdig : ∀ c ∈ ds, c.isDigit = true) :
    markerSplit (ds.reverse ++ ('#' :: rest)) = some (ds.reverse, rest) := by
  have hdig' : ∀ c ∈ ds.reverse, Char.isDigit c = true := by
    intro c hc
    exact hdig c (List.mem_reverse.mp hc)
  have htake : (ds.reverse ++ ('#' :: rest)).takeWhile Char.isDigit = ds.reverse := by
    rw [takeWhile_append_of_forall Char.isDigit ds.reverse ('#' :: rest) hdig']
    simp [List.takeWhile_cons]
  have hdrop : (ds.reverse ++ ('#' :: rest)).dropWhile Char.isDigit = '#' :: rest := by
    rw [dropWhile_append_of_forall Char.isDigit ds.reverse ('#' :: rest) hdig']
    simp [List.dropWhile_cons]
  have hrevne : ds.reverse ≠ [] := by
    simpa using hne
  simp only [markerSplit, htake, hdrop, List.dropWhile_cons]
  rw [List.isEmpty_eq_false_iff_exists_mem.mpr]
  · simp [isPySpace]
  · obtain ⟨c, cs, hc⟩ := List.exists_cons_of_ne_nil hrevne
    exact ⟨c, by simp [hc]⟩

theorem parseRankStr_format (b : String) (r : Int) (hr : 0 ≤ r) :
    parseRankStr (b ++ " #" ++ intStr r) = some r := by
  obtain ⟨hval, hne, hdig⟩ := natDigits_spec r.toNat
  have hstr : intStr r = String.mk (natDigits r.toNat) := by
    unfold intStr
    rw [if_neg (by omega : ¬ r < 0)]
  have hdata : (b ++ " #" ++ intStr r).data
      = b.data ++ ([' ', '#'] ++ natDigits r.toNat) := by
    rw [hstr]
    simp [String.data_append]
  have hrev : (b ++ " #" ++ intStr r).data.reverse
      = (natDigits r.toNat).reverse ++ ('#' :: ' ' :: b.data.reverse) := by
    rw [hdata]
    simp
  have hdf : dropFinalNL ((natDigits r.toNat).reverse ++ ('#' :: ' ' :: b.data.reverse))
      = (natDigits r.toNat).reverse ++ ('#' :: ' ' :: b.data.reverse) := by
    obtain ⟨c, cs, hc⟩ := List.exists_cons_of_ne_nil (by simpa using hne :
      (natDigits r.toNat).reverse ≠ [])
    have hcd : c.isDigit = true := hdig c (List.mem_reverse.mp (by simp [hc]))
    rw [hc]
    simp only [List.cons_append, dropFinalNL]
    rw [if_neg (isDigit_ne_newline c hcd)]
  unfold parseRankStr
  rw [hrev, hdf, markerSplit_digits_append (natDigits r.toNat) (' ' :: b.data.reverse) hne hdig]
  simp only [List.reverse_reverse, hval]
  rw [Int.toNat_of_nonneg hr]

/-- C4 (amended): the first half of the round trip,
`parse(format(base, r)) = r`, holds for every base string whatever (no
marker-freeness is needed) and every positive rank; the second half,
`parse(format(base, none)) = none`, holds provided the trimmed,
marker-stripped base still contains no trailing rank marker.  The original
claim assumed only that the raw base contains no trailing marker, but
trimming can expose a marker hidden by trailing whitespace (see the
counterexample). -/
theorem claim4_round_trip (base : String) (r : Int) (hr : 1 ≤ r) :
    parse_rank (some (format_name base (some r))) = some r ∧
    (parseRankStr (pyStrip (stripMarker base)) = none →
      parse_rank (some (format_name base none)) = none) := by
  constructor
  · have h1 : parseRankStr (pyStrip (stripMarker base) ++ " #" ++ intStr r) = some r :=
      parseRankStr_format (pyStrip (stripMarker base)) r (by omega)
    have hne : pyStrip (stripMarker base) ++ " #" ++ intStr r ≠ "" := by
      intro h
      have hd := congrArg String.data h
      simp [String.data_append] at hd
    simp only [format_name, parse_rank, if_neg hne]
    exact h1
  · intro hb
    by_cases he : pyStrip (stripMarker base) = ""
    · simp [format_name, parse_rank, he]
    · simp [format_name, parse_rank, he, hb]

/-- C4 witness: the round trip at base "Nova" and rank 7. -/
theorem claim4_round_trip_witness :
    (1 : Int) ≤ 7 ∧ parse_rank (some (format_name ("Nova") (some 7))) = some 7 :=
  ⟨by decide, (claim4_round_trip ("Nova") 7 (by decide)).1⟩

/-- C4 counterexample: the base "a #3 " contains no trailing rank marker
(the regex anchors the digits at the end of the string, and the string ends
in a space, so `parse` returns none), yet `format(base, none)` trims the
trailing space, exposing the marker, and parses back to 3 instead of none. -/
theorem claim4_counterexample :
    parse_rank (some ("a #3 ")) = none ∧
    parse_rank (some (format_name ("a #3 ") none)) = some 3 := by
  decide

/-! Integer segments: the toolbox for the contiguity proofs. -/

theorem length_seg : ∀ (n : Nat) (a : Int), (seg a n).length = n := by
  intro n
  induction n with
  | zero => intro a; rfl
  | succ n ih => intro a; simp [seg, ih]

theorem mem_seg : ∀ (n : Nat) (a r : Int), r ∈ seg a n ↔ a ≤ r ∧ r < a + n := by
  intro n
  induction n with
  | zero => intro a r; simp [seg]
  | succ n ih =>
    intro a r
    simp only [seg, List.mem_cons, ih]
    constructor
    · rintro (rfl | ⟨h1, h2⟩) <;> [skip; skip] <;> push_cast <;> omega
    · intro ⟨h1, h2⟩
      by_cases hr : r = a
      · exact Or.inl hr
      · right
        push_cast at h2 ⊢
        omega

theorem seg_append (m n : Nat) :
    ∀ a : Int, seg a (m + n) = seg a m ++ seg (a + (m : Int)) n := by
  induction m with
  | zero => intro a; simp [seg]
  | succ m ih =>
    intro a
    have h1 : m + 1 + n = (m + n) + 1 := by omega
    have h2 : a + (((m + 1 : Nat) : Int)) = (a + 1) + (m : Int) := by
      push_cast
      ring
    rw [h1, h2]
    simp [seg, ih (a + 1), List.cons_append]

theorem map_seg_congr_id (f : Int → Int) :
    ∀ (n : Nat) (a : Int), (∀ r, a ≤ r → r < a + n → f r = r) →
      (seg a n).map f = seg a n := by
  intro n
  induction n with
  | zero => intro a _; rfl
  | succ n ih =>
    intro a h
    simp only [seg, List.map_cons]
    rw [h a le_rfl (by push_cast; omega),
      ih (a + 1) (fun r h1 h2 => h r (by omega) (by push_cast at h2 ⊢; omega))]

theorem map_seg_add_one (f : Int → Int) :
    ∀ (n : Nat) (a : Int), (∀ r, a ≤ r → r < a + n → f r = r + 1) →
      (seg a n).map f = seg (a + 1) n := by
  intro n
  induction n with
  | zero => intro a _; rfl
  | succ n ih =>
    intro a h
    simp only [seg, List.map_cons]
    rw [h a le_rfl (by push_cast; omega),
      ih (a + 1) (fun r h1 h2 => h r (by omega) (by push_cast at h2 ⊢; omega))]

theorem map_seg_sub_one (f : Int → Int) :
    ∀ (n : Nat) (a : Int), (∀ r, a ≤ r → r < a + n → f r = r - 1) →
      (seg a n).map f = seg (a - 1) n := by
  intro n
  induction n with
  | zero => intro a _; rfl
  | succ n ih =>
    intro a h
    simp only [seg, List.map_cons]
    rw [h a le_rfl (by push_cast; omega),
      ih (a + 1) (fun r h1 h2 => h r (by omega) (by push_cast at h2 ⊢; omega))]
    congr 2
    omega

/-! Decomposition lemmas for the contiguity proofs. -/

theorem mapRanks_snd (t : Table) (f : Int → Int) :
    (mapRanks t f).map Prod.snd = (t.map Prod.snd).map f := by
  induction t with
  | nil => rfl
  | cons p t ih => simp [mapRanks, ih]

theorem mapRanks_fst (t : Table) (f : Int → Int) :
    (mapRanks t f).map Prod.fst = t.map Prod.fst := by
  induction t with
  | nil => rfl
  | cons p t ih => simp [mapRanks, ih]

theorem length_mapRanks (t : Table) (f : Int → Int) :
    (mapRanks t f).length = t.length := by
  simp [mapRanks]

theorem dictGet_some_decomp (t : Table) (k : String) (v : Int)
    (h : dictGet t k = some v) :
    ∃ pre post : Table,
      t = pre ++ (k, v) :: post ∧ dictPop t k = pre ++ post := by
  induction t with
  | nil => simp [dictGet] at h
  | cons p t ih =>
    obtain ⟨p1, p2⟩ := p
    by_cases hp : p1 = k
    · subst hp
      have h' : p2 = v := by simpa [dictGet] using h
      subst h'
      exact ⟨[], t, rfl, by simp [dictPop]⟩
    · simp only [dictGet, hp, if_neg, if_false] at h
      obtain ⟨pre, post, ht, hpop⟩ := ih h
      refine ⟨(p1, p2) :: pre, post, by simp [ht], ?_⟩
      simp [dictPop, hp, hpop]

/-- Peel a ranked member off a contiguous table: popping `target` (whose rank
is `o` and whose key occurs once) leaves a table whose rank multiset is the
segment `1..N` with `o` removed, that is, `1..o-1` together with `o+1..N`. -/
theorem ranks_pop_perm (t : Table) (target : String) (o : Int)
    (hNd : KeysNodup t) (hC : Contiguous t) (hget : dictGet t target = some o) :
    ∃ jo mo : Nat,
      (jo : Int) = o - 1 ∧ t.length = jo + 1 + mo ∧
      target ∉ (dictPop t target).map Prod.fst ∧
      (dictPop t target).length = jo + mo ∧
      ((dictPop t target).map Prod.snd).Perm (seg 1 jo ++ seg (o + 1) mo) := by
  obtain ⟨pre, post, ht, hpop⟩ := dictGet_some_decomp t target o hget
  have hmem : o ∈ t.map Prod.snd := by
    rw [ht]
    simp
  have hoseg : o ∈ seg 1 t.length := (hC.mem_iff).mp hmem
  obtain ⟨ho1, ho2⟩ := (mem_seg t.length 1 o).mp hoseg
  have hkeys : target ∉ (dictPop t target).map Prod.fst := by
    rw [hpop]
    have hnd := hNd
    unfold KeysNodup at hnd
    rw [ht] at hnd
    simp only [List.map_append, List.map_cons] at hnd
    rw [List.nodup_middle, List.nodup_cons] at hnd
    simpa using hnd.1
  have hlenpre : t.length = pre.length + 1 + post.length := by
    rw [ht]
    simp only [List.length_append, List.length_cons]
    omega
  obtain ⟨jo, mo, hjo, hmo⟩ :
      ∃ jo mo : Nat, (jo : Int) = o - 1 ∧ (mo : Int) = (t.length : Int) - o :=
    ⟨(o - 1).toNat, ((t.length : Int) - o).toNat, by omega, by omega⟩
  refine ⟨jo, mo, hjo, by omega, hkeys, ?_, ?_⟩
  · rw [hpop]
    simp only [List.length_append]
    omega
  · have hperm0 : (t.map Prod.snd).Perm (o :: ((dictPop t target).map Prod.snd)) := by
      rw [hpop, ht]
      simp only [List.map_append, List.map_cons]
      exact List.perm_middle
    have hsegsplit : seg 1 t.length = seg 1 jo ++ (o :: seg (o + 1) mo) := by
      have hlen2 : t.length = jo + (mo + 1) := by omega
      rw [hlen2, seg_append jo (mo + 1) 1]
      have h1 : (1 : Int) + (jo : Int) = o := by omega
      rw [h1]
      rfl
    have hchain : (o :: ((dictPop t target).map Prod.snd)).Perm
        (o :: (seg 1 jo ++ seg (o + 1) mo)) := by
      refine (hperm0.symm.trans hC).trans ?_
      rw [hsegsplit]
      exact List.perm_middle
    exact List.Perm.cons_inv hchain

/-- Closing shuffle shared by all `adjust_ranks` cases: a list permuting to
`1..j` followed by `k+1..k+m`, with `k = j+1` appended at the end, permutes
to the full segment `1..N` for `N = j + 1 + m`. -/
theorem perm_snoc_seg (A : List Int) (k : Int) (j m N : Nat)
    (hA : A.Perm (seg 1 j ++ seg (k + 1) m))
    (hj : (j : Int) = k - 1) (hN : N = j + 1 + m) :
    (A ++ [k]).Perm (seg 1 N) := by
  have hfin : seg 1 N = seg 1 j ++ (k :: seg (k + 1) m) := by
    have hlen : N = j + (m + 1) := by omega
    rw [hlen, seg_append j (m + 1) 1]
    have h1 : (1 : Int) + (j : Int) = k := by omega
    rw [h1]
    rfl
  refine ((hA.append_right [k]).trans ?_)
  rw [List.append_assoc, hfin]
  exact List.Perm.append_left (seg 1 j) (List.perm_append_singleton k (seg (k + 1) m))

/-! Contiguity preservation, case by case. -/

theorem contiguous_adjust_insert (t : Table) (target : String) (k : Int)
    (hC : Contiguous t) (hget : dictGet t target = none)
    (hk1 : 1 ≤ k) (hk2 : k ≤ (t.length : Int) + 1) :
    Contiguous (adjust_ranks t target none k) := by
  have hkeys : target ∉ t.map Prod.fst := (dictGet_eq_none_iff t target).mp hget
  have hres : adjust_ranks t target none k
      = mapRanks t (fun r => if k ≤ r then r + 1 else r) ++ [(target, k)] := by
    show dictInsert (mapRanks t (fun r => if k ≤ r then r + 1 else r)) target k = _
    apply dictInsert_eq_append_of_get_none
    rw [dictGet_eq_none_iff, mapRanks_fst]
    exact hkeys
  obtain ⟨j, m, hj, hm⟩ : ∃ j m : Nat, (j : Int) = k - 1 ∧ t.length = j + m :=
    ⟨(k - 1).toNat, t.length - (k - 1).toNat, by omega, by omega⟩
  unfold Contiguous
  rw [hres]
  have hlen : (mapRanks t (fun r => if k ≤ r then r + 1 else r)
      ++ [(target, k)]).length = t.length + 1 := by
    simp [length_mapRanks]
  have hranks : (mapRanks t (fun r => if k ≤ r then r + 1 else r)
      ++ [(target, k)]).map Prod.snd
      = (t.map Prod.snd).map (fun r => if k ≤ r then r + 1 else r) ++ [k] := by
    simp [mapRanks_snd]
  rw [hlen, hranks]
  apply perm_snoc_seg _ k j m (t.length + 1) ?_ hj (by omega)
  refine (hC.map _).trans ?_
  have hsplit : seg 1 t.length = seg 1 j ++ seg k m := by
    rw [hm, seg_append j m 1]
    have h1 : (1 : Int) + (j : Int) = k := by omega
    rw [h1]
  have hm1 : (seg 1 j).map (fun r => if k ≤ r then r + 1 else r) = seg 1 j := by
    apply map_seg_congr_id
    intro r hr1 hr2
    rw [if_neg (by omega)]
  have hm2 : (seg k m).map (fun r => if k ≤ r then r + 1 else r) = seg (k + 1) m := by
    apply map_seg_add_one
    intro r hr1 hr2
    rw [if_pos hr1]
  rw [hsplit, List.map_append, hm1, hm2]

theorem contiguous_adjust_move (t : Table) (target : String) (o k : Int)
    (hNd : KeysNodup t) (hC : Contiguous t) (hget : dictGet t target = some o)
    (hk1 : 1 ≤ k) (hk2 : k ≤ (t.length : Int)) :
    Contiguous (adjust_ranks t target (some o) k) := by
  obtain ⟨jo, mo, hjo, hN, hkeys, hpoplen, hT1⟩ := ranks_pop_perm t target o hNd hC hget
  have ho1 : 1 ≤ o := by omega
  rcases lt_trichotomy k o with hko | hko | hko
  · -- moving up: increment the band [k, o)
    have hres : adjust_ranks t target (some o) k
        = mapRanks (dictPop t target) (fun r => if k ≤ r ∧ r < o then r + 1 else r)
          ++ [(target, k)] := by
      show dictInsert
          (if k < o then
            mapRanks (dictPop t target) (fun r => if k ≤ r ∧ r < o then r + 1 else r)
          else if o < k then
            mapRanks (dictPop t target) (fun r => if o < r ∧ r ≤ k then r - 1 else r)
          else dictPop t target) target k = _
      rw [if_pos hko]
      apply dictInsert_eq_append_of_get_none
      rw [dictGet_eq_none_iff, mapRanks_fst]
      exact hkeys
    obtain ⟨j1, j2, hj1, hj2⟩ : ∃ j1 j2 : Nat, (j1 : Int) = k - 1 ∧ jo = j1 + j2 :=
      ⟨(k - 1).toNat, jo - (k - 1).toNat, by omega, by omega⟩
    unfold Contiguous
    rw [hres]
    have hlen : (mapRanks (dictPop t target)
        (fun r => if k ≤ r ∧ r < o then r + 1 else r) ++ [(target, k)]).length
        = t.length := by
      simp only [List.length_append, length_mapRanks, hpoplen, List.length_cons,
        List.length_nil]
      omega
    have hranks : (mapRanks (dictPop t target)
        (fun r => if k ≤ r ∧ r < o then r + 1 else r) ++ [(target, k)]).map Prod.snd
        = ((dictPop t target).map Prod.snd).map
            (fun r => if k ≤ r ∧ r < o then r + 1 else r) ++ [k] := by
      simp [mapRanks_snd]
    rw [hlen, hranks]
    apply perm_snoc_seg _ k j1 (j2 + mo) t.length ?_ hj1 (by omega)
    refine (hT1.map _).trans ?_
    have hsjo : seg 1 jo = seg 1 j1 ++ seg k j2 := by
      rw [hj2, seg_append j1 j2 1]
      have h1 : (1 : Int) + (j1 : Int) = k := by omega
      rw [h1]
    have hm1 : (seg 1 j1).map (fun r => if k ≤ r ∧ r < o then r + 1 else r)
        = seg 1 j1 := by
      apply map_seg_congr_id
      intro r hr1 hr2
      rw [if_neg (by omega)]
    have hm2 : (seg k j2).map (fun r => if k ≤ r ∧ r < o then r + 1 else r)
        = seg (k + 1) j2 := by
      apply map_seg_add_one
      intro r hr1 hr2
      rw [if_pos ⟨hr1, by omega⟩]
    have hm3 : (seg (o + 1) mo).map (fun r => if k ≤ r ∧ r < o then r + 1 else r)
        = seg (o + 1) mo := by
      apply map_seg_congr_id
      intro r hr1 hr2
      rw [if_neg (by omega)]
    rw [hsjo, List.map_append, List.map_append, hm1, hm2, hm3, List.append_assoc]
    apply List.Perm.append_left
    have hmerge : seg (k + 1) (j2 + mo) = seg (k + 1) j2 ++ seg (o + 1) mo := by
      rw [seg_append j2 mo (k + 1)]
      have h1 : k + 1 + (j2 : Int) = o + 1 := by omega
      rw [h1]
    rw [hmerge]
  · -- same rank: no shift at all, the target just moves to the end
    have hres : adjust_ranks t target (some o) k
        = dictPop t target ++ [(target, k)] := by
      show dictInsert
          (if k < o then
            mapRanks (dictPop t target) (fun r => if k ≤ r ∧ r < o then r + 1 else r)
          else if o < k then
            mapRanks (dictPop t target) (fun r => if o < r ∧ r ≤ k then r - 1 else r)
          else dictPop t target) target k = _
      rw [if_neg (by omega), if_neg (by omega)]
      apply dictInsert_eq_append_of_get_none
      rw [dictGet_eq_none_iff]
      exact hkeys
    unfold Contiguous
    rw [hres]
    have hlen : (dictPop t target ++ [(target, k)]).length = t.length := by
      simp only [List.length_append, hpoplen, List.length_cons, List.length_nil]
      omega
    have hranks : (dictPop t target ++ [(target, k)]).map Prod.snd
        = ((dictPop t target).map Prod.snd) ++ [k] := by
      simp
    rw [hlen, hranks]
    apply perm_snoc_seg _ k jo mo t.length ?_ (by omega) (by omega)
    rw [hko]
    exact hT1
  · -- moving down: decrement the band (o, k]
    have hres : adjust_ranks t target (some o) k
        = mapRanks (dictPop t target) (fun r => if o < r ∧ r ≤ k then r - 1 else r)
          ++ [(target, k)] := by
      show dictInsert
          (if k < o then
            mapRanks (dictPop t target) (fun r => if k ≤ r ∧ r < o then r + 1 else r)
          else if o < k then
            mapRanks (dictPop t target) (fun r => if o < r ∧ r ≤ k then r - 1 else r)
          else dictPop t target) target k = _
      rw [if_neg (by omega), if_pos hko]
      apply dictInsert_eq_append_of_get_none
      rw [dictGet_eq_none_iff, mapRanks_fst]
      exact hkeys
    obtain ⟨m1, m2, hm1e, hm2e⟩ : ∃ m1 m2 : Nat, (m1 : Int) = k - o ∧ mo = m1 + m2 :=
      ⟨(k - o).toNat, mo - (k - o).toNat, by omega, by omega⟩
    unfold Contiguous
    rw [hres]
    have hlen : (mapRanks (dictPop t target)
        (fun r => if o < r ∧ r ≤ k then r - 1 else r) ++ [(target, k)]).length
        = t.length := by
      simp only [List.length_append, length_mapRanks, hpoplen, List.length_cons,
        List.length_nil]
      omega
    have hranks : (mapRanks (dictPop t target)
        (fun r => if o < r ∧ r ≤ k then r - 1 else r) ++ [(target, k)]).map Prod.snd
        = ((dictPop t target).map Prod.snd).map
            (fun r => if o < r ∧ r ≤ k then r - 1 else r) ++ [k] := by
      simp [mapRanks_snd]
    rw [hlen, hranks]
    apply perm_snoc_seg _ k (jo + m1) m2 t.length ?_ (by omega) (by omega)
    refine (hT1.map _).trans ?_
    have hsmo : seg (o + 1) mo = seg (o + 1) m1 ++ seg (k + 1) m2 := by
      rw [hm2e, seg_append m1 m2 (o + 1)]
      have h1 : o + 1 + (m1 : Int) = k + 1 := by omega
      rw [h1]
    have hq1 : (seg 1 jo).map (fun r => if o < r ∧ r ≤ k then r - 1 else r)
        = seg 1 jo := by
      apply map_seg_congr_id
      intro r hr1 hr2
      rw [if_neg (by omega)]
    have hq2 : (seg (o + 1) m1).map (fun r => if o < r ∧ r ≤ k then r - 1 else r)
        = seg o m1 := by
      have hmap := map_seg_sub_one (fun r => if o < r ∧ r ≤ k then r - 1 else r) m1 (o + 1)
        (fun r hr1 hr2 => by
          show (if o < r ∧ r ≤ k then r - 1 else r) = r - 1
          rw [if_pos ⟨by omega, by omega⟩])
      have he : o + 1 - 1 = o := by ring
      rw [he] at hmap
      exact hmap
    have hq3 : (seg (k + 1) m2).map (fun r => if o < r ∧ r ≤ k then r - 1 else r)
        = seg (k + 1) m2 := by
      apply map_seg_congr_id
      intro r hr1 hr2
      rw [if_neg (by omega)]
    rw [hsmo, List.map_append, List.map_append, hq1, hq2, hq3, ← List.append_assoc]
    have hmerge : seg 1 jo ++ seg o m1 = seg 1 (jo + m1) := by
      rw [seg_append jo m1 1]
      have h1 : (1 : Int) + (jo : Int) = o := by omega
      rw [h1]
    rw [hmerge]

theorem contiguous_rank_remove (t : Table) (target : String) (o : Int)
    (hNd : KeysNodup t) (hC : Contiguous t) (hget : dictGet t target = some o) :
    Contiguous (rank_remove t target).2 := by
  obtain ⟨jo, mo, hjo, hN, hkeys, hpoplen, hT1⟩ := ranks_pop_perm t target o hNd hC hget
  have hres : (rank_remove t target).2
      = mapRanks (dictPop t target) (fun r => if o < r then r - 1 else r) := by
    simp [rank_remove, hget]
  unfold Contiguous
  rw [hres, length_mapRanks, hpoplen, mapRanks_snd]
  refine (hT1.map _).trans ?_
  have hq1 : (seg 1 jo).map (fun r => if o < r then r - 1 else r) = seg 1 jo := by
    apply map_seg_congr_id
    intro r hr1 hr2
    rw [if_neg (by omega)]
  have hq2 : (seg (o + 1) mo).map (fun r => if o < r then r - 1 else r) = seg o mo := by
    have hmap := map_seg_sub_one (fun r => if o < r then r - 1 else r) mo (o + 1)
      (fun r hr1 hr2 => by
        show (if o < r then r - 1 else r) = r - 1
        rw [if_pos (by omega)])
    have he : o + 1 - 1 = o := by ring
    rw [he] at hmap
    exact hmap
  rw [List.map_append, hq1, hq2]
  have hmerge : seg 1 (jo + mo) = seg 1 jo ++ seg o mo := by
    rw [seg_append jo mo 1]
    have h1 : (1 : Int) + (jo : Int) = o := by omega
    rw [h1]
  rw [hmerge]

/-- C1 (amended): starting from a well-formed contiguous table, `remove_rank`
always restores the rank set to exactly `{1..N}`; `set_rank` (`adjust_ranks`
with the old rank read from the table) restores it provided the requested
`new_rank` does not exceed the resulting table size — the old size when the
target was already ranked, the old size plus one otherwise.  The original
claim also covered `new_rank` greater than table size + 1; there
`adjust_ranks` shifts nothing and writes the oversized rank verbatim,
leaving a sparse table (see the counterexample), because this implementation
never renumbers after a set. -/
theorem claim1_amended_contiguity (t : Table) (target : String) (k : Int)
    (hNd : KeysNodup t) (hC : Contiguous t) (hk1 : 1 ≤ k) :
    (dictGet t target = none → k ≤ (t.length : Int) + 1 →
      Contiguous (adjust_ranks t target (dictGet t target) k)) ∧
    (∀ o : Int, dictGet t target = some o → k ≤ (t.length : Int) →
      Contiguous (adjust_ranks t target (dictGet t target) k)) ∧
    (∀ o : Int, dictGet t target = some o →
      Contiguous (rank_remove t target).2) := by
  refine ⟨fun hget hk2 => ?_, fun o hget hk2 => ?_, fun o hget => ?_⟩
  · rw [hget]
    exact contiguous_adjust_insert t target k hC hget hk1 hk2
  · rw [hget]
    exact contiguous_adjust_move t target o k hNd hC hget hk1 hk2
  · exact contiguous_rank_remove t target o hNd hC hget

/-- C1 counterexample: the empty table is contiguous and 2 is a positive
rank exceeding size + 1, but `set_rank` on it yields the table `{A: 2}`,
whose rank set is `{2}`, not `{1}` — a sparse table survives the call. -/
theorem claim1_counterexample :
    KeysNodup ([] : Table) ∧ Contiguous ([] : Table) ∧ (1 : Int) ≤ 2 ∧
    ¬ Contiguous (adjust_ranks [] ("A") (dictGet ([] : Table) ("A")) 2) := by
  decide

/-- C1 witness: the amended theorem applied to the table `{A:1, B:2}`,
inserting `C` at rank 3 (= size + 1) and removing `A`. -/
theorem claim1_amended_contiguity_witness :
    (KeysNodup [("A", 1), ("B", 2)] ∧ Contiguous [("A", 1), ("B", 2)] ∧
      (1 : Int) ≤ 3) ∧
    Contiguous (adjust_ranks [("A", 1), ("B", 2)] ("C")
      (dictGet [("A", 1), ("B", 2)] ("C")) 3) ∧
    Contiguous (rank_remove [("A", 1), ("B", 2)] ("A")).2 :=
  ⟨⟨by decide, by decide, by decide⟩,
    (claim1_amended_contiguity [("A", 1), ("B", 2)] ("C") 3 (by decide) (by decide)
      (by decide)).1 (by decide) (by decide),
    (claim1_amended_contiguity [("A", 1), ("B", 2)] ("A") 3 (by decide) (by decide)
      (by decide)).2.2 1 (by decide)⟩
